import Mathlib

/-!
# Verification of the A2M query-gap cleaning core of plmc_mcp

Shallow embedding of the alignment-processing functions of the repository:
`read_a2m`, `remove_query_gaps` and `write_a2m` from `src/tools/readme.py`
(and their duplicates in `script/rm_a2m_query_gaps.py`, embedded in the
`Script` namespace), together with the composed gap-cleaning pipeline used
by `convert_a3m_to_a2m`.

Modelling conventions:
* Python strings are embedded as `List Char`.
* File I/O is abstracted away: `read_a2m` takes the file's list of lines
  with trailing line terminators already stripped (the effect of
  `line.rstrip` over the `for line in f` iteration), and `write_a2m`
  returns the list of lines it would write.
* Python's `seq[i]` indexing raises `IndexError` when out of range; the
  embedding uses `List.get?` and propagates failure through `Option`, so
  a Python `IndexError` corresponds to `none`.
* The Python loop `for i in range(0, len(seq), 80)` in `write_a2m` runs at
  most `len(seq)` iterations; `chunks80` realises it with the fuel
  argument `seq.length`, which never runs out.
-/

/-- `char not in '.-'` test of `remove_query_gaps` (readme.py line 130):
a character is a gap iff it is `.` or `-`. -/
def isGap (c : Char) : Bool := c == '.' || c == '-'

/-- `line.startswith('>')` (readme.py line 96). -/
def startsWithGt (line : List Char) : Bool :=
  match line with
  | [] => false
  | c :: _ => c == '>'

/-- The enumeration underlying
`[i for i, char in enumerate(query_seq) if char not in '.-']`
(readme.py lines 129-130), with `i` the running index of `enumerate`. -/
def non_gap_positions_from (i : Nat) : List Char → List Nat
  | [] => []
  | c :: cs =>
    if isGap c then non_gap_positions_from (i + 1) cs
    else i :: non_gap_positions_from (i + 1) cs

/-- `non_gap_positions` of readme.py lines 129-130: the indices of the
non-gap characters of the query sequence, starting the enumeration at 0. -/
def non_gap_positions (query_seq : List Char) : List Nat :=
  non_gap_positions_from 0 query_seq

/-- `''.join(seq[i] for i in non_gap_positions)` (readme.py line 135).
Each `seq[i]` raises `IndexError` when `i` is out of range, modelled by
`none`. -/
def projectSeq (seq : List Char) : List Nat → Option (List Char)
  | [] => some []
  | i :: is =>
    match seq.get? i, projectSeq seq is with
    | some c, some cs => some (c :: cs)
    | _, _ => none

/-- The `for header, seq in sequences` loop of readme.py lines 133-136,
building `cleaned_sequences` in order; the first out-of-range index aborts
the whole call (Python raises). -/
def cleanAll (idxs : List Nat) :
    List (List Char × List Char) → Option (List (List Char × List Char))
  | [] => some []
  | (header, seq) :: rest =>
    match projectSeq seq idxs, cleanAll idxs rest with
    | some cs, some out => some ((header, cs) :: out)
    | _, _ => none

/-- `remove_query_gaps` of readme.py lines 113-138: on an empty input the
input itself is returned; otherwise the retained indices are computed from
the first (query) sequence and every record, the query included, is
projected onto them. -/
def remove_query_gaps (sequences : List (List Char × List Char)) :
    Option (List (List Char × List Char)) :=
  match sequences with
  | [] => some sequences
  | (_query_header, query_seq) :: _ =>
    cleanAll (non_gap_positions query_seq) sequences

/-- The line loop of `read_a2m` (readme.py lines 94-108), carrying
`current_header` and the accumulated `current_seq` line fragments which are
joined on save; the final save happens only when a header was seen. -/
def read_a2m_loop :
    List (List Char) → Option (List Char) → List (List Char) →
    List (List Char × List Char)
  | [], current_header, current_seq =>
    match current_header with
    | some h => [(h, current_seq.flatten)]
    | none => []
  | line :: rest, current_header, current_seq =>
    if startsWithGt line then
      match current_header with
      | some h => (h, current_seq.flatten) :: read_a2m_loop rest (some line) []
      | none => read_a2m_loop rest (some line) []
    else
      read_a2m_loop rest current_header (current_seq ++ [line])

/-- `read_a2m` of readme.py lines 79-110, over the file's stripped lines. -/
def read_a2m (lines : List (List Char)) : List (List Char × List Char) :=
  read_a2m_loop lines none []

/-- The `for i in range(0, len(seq), 80)` chunking loop of `write_a2m`
(readme.py lines 153-154): successive slices `seq[i:i+80]`. The fuel
argument bounds the iteration count and is instantiated with `seq.length`,
which always suffices. -/
def chunks80_go : Nat → List Char → List (List Char)
  | 0, _ => []
  | _, [] => []
  | fuel + 1, c :: cs => ((c :: cs).take 80) :: chunks80_go fuel ((c :: cs).drop 80)

/-- The 80-column wrapping of one residue string in `write_a2m`. -/
def chunks80 (seq : List Char) : List (List Char) :=
  chunks80_go seq.length seq

/-- `write_a2m` of readme.py lines 141-154, returning the lines written:
for each record the header line, then the sequence in chunks of 80. -/
def write_a2m : List (List Char × List Char) → List (List Char)
  | [] => []
  | (header, seq) :: rest => header :: (chunks80 seq ++ write_a2m rest)

/-- The gap-cleaning tail of `convert_a3m_to_a2m` (readme.py lines
185-208) after the external reformat step, on in-memory sequences:
`write_a2m` runs only if `remove_query_gaps` returned normally, so an
`IndexError` inside it means nothing is written. -/
def convert_gap_clean (sequences : List (List Char × List Char)) :
    Option (List (List Char)) :=
  match remove_query_gaps sequences with
  | some cleaned => some (write_a2m cleaned)
  | none => none

/-- The composed `CleanQueryGaps` pipeline of the spec:
serialize (filter (parse input)), as chained in `convert_a3m_to_a2m`. -/
def cleanQueryGaps (lines : List (List Char)) : Option (List (List Char)) :=
  convert_gap_clean (read_a2m lines)

/-!
## Embedding of `script/rm_a2m_query_gaps.py`

The standalone script defines its own `read_a2m`, `remove_query_gaps` and
`write_a2m` (lines 13-78); they are embedded here separately, under the
`Script` namespace, so that their agreement with the MCP tool module's
functions can be stated and proved.
-/

namespace Script

/-- Gap test of the script's `remove_query_gaps` (script line 58). -/
def isGap (c : Char) : Bool := c == '.' || c == '-'

/-- `line.startswith('>')` (script line 24). -/
def startsWithGt (line : List Char) : Bool :=
  match line with
  | [] => false
  | c :: _ => c == '>'

/-- Enumeration of the script's non-gap index comprehension
(script lines 57-58). -/
def non_gap_positions_from (i : Nat) : List Char → List Nat
  | [] => []
  | c :: cs =>
    if isGap c then non_gap_positions_from (i + 1) cs
    else i :: non_gap_positions_from (i + 1) cs

/-- `non_gap_positions` of script lines 57-58. -/
def non_gap_positions (query_seq : List Char) : List Nat :=
  non_gap_positions_from 0 query_seq

/-- `''.join(seq[i] for i in non_gap_positions)` (script line 63). -/
def projectSeq (seq : List Char) : List Nat → Option (List Char)
  | [] => some []
  | i :: is =>
    match seq.get? i, projectSeq seq is with
    | some c, some cs => some (c :: cs)
    | _, _ => none

/-- The record loop of script lines 61-64. -/
def cleanAll (idxs : List Nat) :
    List (List Char × List Char) → Option (List (List Char × List Char))
  | [] => some []
  | (header, seq) :: rest =>
    match projectSeq seq idxs, cleanAll idxs rest with
    | some cs, some out => some ((header, cs) :: out)
    | _, _ => none

/-- `remove_query_gaps` of script lines 41-66. -/
def remove_query_gaps (sequences : List (List Char × List Char)) :
    Option (List (List Char × List Char)) :=
  match sequences with
  | [] => some sequences
  | (_query_header, query_seq) :: _ =>
    cleanAll (non_gap_positions query_seq) sequences

/-- The line loop of the script's `read_a2m` (script lines 22-36). -/
def read_a2m_loop :
    List (List Char) → Option (List Char) → List (List Char) →
    List (List Char × List Char)
  | [], current_header, current_seq =>
    match current_header with
    | some h => [(h, current_seq.flatten)]
    | none => []
  | line :: rest, current_header, current_seq =>
    if startsWithGt line then
      match current_header with
      | some h => (h, current_seq.flatten) :: read_a2m_loop rest (some line) []
      | none => read_a2m_loop rest (some line) []
    else
      read_a2m_loop rest current_header (current_seq ++ [line])

/-- `read_a2m` of script lines 13-38. -/
def read_a2m (lines : List (List Char)) : List (List Char × List Char) :=
  read_a2m_loop lines none []

/-- The `range(0, len(seq), 80)` chunking loop of the script's `write_a2m`
(script lines 77-78), fuel-bounded as in the module embedding. -/
def chunks80_go : Nat → List Char → List (List Char)
  | 0, _ => []
  | _, [] => []
  | fuel + 1, c :: cs => ((c :: cs).take 80) :: chunks80_go fuel ((c :: cs).drop 80)

/-- 80-column wrapping of one residue string (script lines 77-78). -/
def chunks80 (seq : List Char) : List (List Char) :=
  chunks80_go seq.length seq

/-- `write_a2m` of script lines 69-78, returning the lines written. -/
def write_a2m : List (List Char × List Char) → List (List Char)
  | [] => []
  | (header, seq) :: rest => header :: (chunks80 seq ++ write_a2m rest)

end Script

/-!
## Helper lemmas
-/

lemma get?_some_lt {l : List Char} {n : Nat} {a : Char}
    (h : l.get? n = some a) : n < l.length :=
  (List.get?_eq_some.mp h).choose

lemma non_gap_positions_from_lower :
    ∀ (qs : List Char) (i j : Nat), j ∈ non_gap_positions_from i qs → i ≤ j := by
  intro qs
  induction qs with
  | nil => intro i j h; simp [non_gap_positions_from] at h
  | cons c cs ih =>
    intro i j h
    by_cases hg : isGap c
    · simp only [non_gap_positions_from, hg, if_pos] at h
      exact Nat.le_of_succ_le (ih (i + 1) j h)
    · simp only [non_gap_positions_from, hg, if_neg, Bool.false_eq_true,
        not_false_iff, List.mem_cons] at h
      rcases h with rfl | h
      · exact Nat.le_refl j
      · exact Nat.le_of_succ_le (ih (i + 1) j h)

lemma non_gap_positions_from_pairwise :
    ∀ (qs : List Char) (i : Nat),
      List.Pairwise (· < ·) (non_gap_positions_from i qs) := by
  intro qs
  induction qs with
  | nil => intro i; simp [non_gap_positions_from]
  | cons c cs ih =>
    intro i
    by_cases hg : isGap c
    · simpa only [non_gap_positions_from, hg, if_pos] using ih (i + 1)
    · simp only [non_gap_positions_from, hg, Bool.false_eq_true, if_neg,
        not_false_iff, List.pairwise_cons]
      exact ⟨fun j hj => Nat.lt_of_succ_le (non_gap_positions_from_lower cs (i + 1) j hj),
        ih (i + 1)⟩

lemma non_gap_positions_from_mem :
    ∀ (qs : List Char) (i j : Nat),
      j ∈ non_gap_positions_from i qs ↔
        i ≤ j ∧ ∃ c, qs.get? (j - i) = some c ∧ isGap c = false := by
  intro qs
  induction qs with
  | nil => intro i j; simp [non_gap_positions_from]
  | cons c cs ih =>
    intro i j
    by_cases hg : isGap c
    · simp only [non_gap_positions_from, hg, if_pos]
      rw [ih (i + 1) j]
      constructor
      · rintro ⟨hij, d, hd, hgd⟩
        refine ⟨Nat.le_of_succ_le hij, d, ?_, hgd⟩
        have : j - i = (j - (i + 1)) + 1 := by omega
        rw [this, List.get?_cons_succ]
        exact hd
      · rintro ⟨hij, d, hd, hgd⟩
        rcases Nat.eq_or_lt_of_le hij with rfl | hlt
        · simp only [Nat.sub_self, List.get?_cons_zero, Option.some.injEq] at hd
          subst hd; rw [hg] at hgd; cases hgd
        · refine ⟨hlt, d, ?_, hgd⟩
          have : j - i = (j - (i + 1)) + 1 := by omega
          rw [this, List.get?_cons_succ] at hd
          exact hd
    · simp only [non_gap_positions_from, hg, Bool.false_eq_true, if_neg,
        not_false_iff, List.mem_cons]
      rw [ih (i + 1) j]
      constructor
      · rintro (rfl | ⟨hij, d, hd, hgd⟩)
        · refine ⟨Nat.le_refl j, c, ?_, Bool.of_not_eq_true hg⟩
          simp [Nat.sub_self]
        · refine ⟨Nat.le_of_succ_le hij, d, ?_, hgd⟩
          have : j - i = (j - (i + 1)) + 1 := by omega
          rw [this, List.get?_cons_succ]
          exact hd
      · rintro ⟨hij, d, hd, hgd⟩
        rcases Nat.eq_or_lt_of_le hij with rfl | hlt
        · exact Or.inl rfl
        · refine Or.inr ⟨hlt, d, ?_, hgd⟩
          have : j - i = (j - (i + 1)) + 1 := by omega
          rw [this, List.get?_cons_succ] at hd
          exact hd

lemma non_gap_positions_mem (qs : List Char) (j : Nat) :
    j ∈ non_gap_positions qs ↔
      ∃ c, qs.get? j = some c ∧ isGap c = false := by
  unfold non_gap_positions
  rw [non_gap_positions_from_mem qs 0 j]
  simp [Nat.zero_le]

lemma non_gap_positions_lt {qs : List Char} {j : Nat}
    (h : j ∈ non_gap_positions qs) : j < qs.length := by
  rcases (non_gap_positions_mem qs j).mp h with ⟨c, hc, -⟩
  exact get?_some_lt hc

lemma non_gap_positions_from_length :
    ∀ (qs : List Char) (i : Nat),
      (non_gap_positions_from i qs).length =
        (qs.filter (fun c => !isGap c)).length := by
  intro qs
  induction qs with
  | nil => intro i; simp [non_gap_positions_from]
  | cons c cs ih =>
    intro i
    by_cases hg : isGap c
    · simp [non_gap_positions_from, hg, List.filter, ih (i + 1)]
    · simp only [Bool.not_eq_true] at hg
      simp [non_gap_positions_from, hg, List.filter, ih (i + 1)]

lemma projectSeq_length :
    ∀ {seq : List Char} {idxs : List Nat} {out : List Char},
      projectSeq seq idxs = some out → out.length = idxs.length := by
  intro seq idxs
  induction idxs with
  | nil => intro out h; simp [projectSeq] at h; subst h; rfl
  | cons i is ih =>
    intro out h
    simp only [projectSeq] at h
    rcases hg : seq.get? i with _ | c <;> rw [hg] at h
    · cases h
    rcases hp : projectSeq seq is with _ | cs <;> rw [hp] at h
    · cases h
    simp only [Option.some.injEq] at h
    subst h
    simp [ih hp]

lemma projectSeq_some_of_lt :
    ∀ {seq : List Char} (idxs : List Nat),
      (∀ i ∈ idxs, i < seq.length) → ∃ out, projectSeq seq idxs = some out := by
  intro seq idxs
  induction idxs with
  | nil => intro _; exact ⟨[], rfl⟩
  | cons i is ih =>
    intro h
    rcases ih (fun j hj => h j (List.mem_cons_of_mem i hj)) with ⟨out, hout⟩
    have hi : i < seq.length := h i (List.mem_cons_self i is)
    refine ⟨seq.get ⟨i, hi⟩ :: out, ?_⟩
    simp only [projectSeq]
    rw [List.get?_eq_get hi, hout]

lemma projectSeq_none_of_mem :
    ∀ {seq : List Char} {idxs : List Nat} {i : Nat},
      i ∈ idxs → seq.length ≤ i → projectSeq seq idxs = none := by
  intro seq idxs
  induction idxs with
  | nil => intro i h; simp at h
  | cons j js ih =>
    intro i hmem hlen
    rcases List.mem_cons.mp hmem with rfl | hmem
    · simp only [projectSeq]
      rw [List.get?_eq_none.mpr hlen]
    · simp only [projectSeq]
      rw [ih hmem hlen]
      rcases seq.get? j with _ | c <;> rfl

lemma projectSeq_shift_pred :
    ∀ (c : Char) (cs : List Char) (idxs : List Nat),
      (∀ j ∈ idxs, j ≠ 0) →
      projectSeq (c :: cs) idxs = projectSeq cs (idxs.map Nat.pred) := by
  intro c cs idxs
  induction idxs with
  | nil => intro _; rfl
  | cons j js ih =>
    intro h
    rcases Nat.exists_eq_succ_of_ne_zero (h j (List.mem_cons_self j js)) with ⟨k, rfl⟩
    rw [List.map_cons]
    simp only [projectSeq, List.get?_cons_succ, Nat.pred_succ,
      ih (fun x hx => h x (List.mem_cons_of_mem _ hx))]

lemma pairwise_lt_map_pred {idxs : List Nat}
    (hpw : List.Pairwise (· < ·) idxs) (hpos : ∀ j ∈ idxs, j ≠ 0) :
    List.Pairwise (· < ·) (idxs.map Nat.pred) := by
  refine List.pairwise_map.mpr ?_
  refine hpw.imp_of_mem ?_
  intro a b ha hb hab
  have ha0 := hpos a ha
  have hb0 := hpos b hb
  simp only [Nat.pred_eq_sub_one]
  omega

lemma projectSeq_sublist :
    ∀ (seq : List Char) (idxs : List Nat),
      List.Pairwise (· < ·) idxs →
      ∀ out, projectSeq seq idxs = some out → out.Sublist seq := by
  intro seq
  induction seq with
  | nil =>
    intro idxs _ out h
    cases idxs with
    | nil => simp [projectSeq] at h; subst h; exact List.nil_sublist []
    | cons i is => simp [projectSeq, List.get?] at h
  | cons c cs ih =>
    intro idxs hpw out h
    cases idxs with
    | nil =>
      simp [projectSeq] at h; subst h; exact List.nil_sublist (c :: cs)
    | cons j js =>
      rcases List.pairwise_cons.mp hpw with ⟨hj, hjs⟩
      cases j with
      | zero =>
        have hne : ∀ x ∈ js, x ≠ 0 := fun x hx => Nat.pos_iff_ne_zero.mp (hj x hx)
        rw [projectSeq, List.get?_cons_zero, projectSeq_shift_pred c cs js hne] at h
        rcases hp : projectSeq cs (js.map Nat.pred) with _ | out' <;> rw [hp] at h
        · cases h
        · simp only [Option.some.injEq] at h
          subst h
          exact (ih (js.map Nat.pred) (pairwise_lt_map_pred hjs hne) out' hp).cons₂ c
      | succ k =>
        have hne : ∀ x ∈ (k + 1) :: js, x ≠ 0 := by
          intro x hx
          rcases List.mem_cons.mp hx with rfl | hx
          · exact Nat.succ_ne_zero k
          · have := hj x hx
            omega
        rw [projectSeq_shift_pred c cs _ hne] at h
        exact (ih _ (pairwise_lt_map_pred hpw hne) out h).cons c

lemma projectSeq_nogap_drop :
    ∀ (qs : List Char) (i : Nat) (seq : List Char),
      (∀ c ∈ qs, isGap c = false) →
      qs.length + i = seq.length →
      projectSeq seq (non_gap_positions_from i qs) = some (seq.drop i) := by
  intro qs
  induction qs with
  | nil =>
    intro i seq _ hlen
    simp only [List.length_nil, Nat.zero_add] at hlen
    simp [non_gap_positions_from, projectSeq, List.drop_eq_nil_of_le (Nat.le_of_eq hlen.symm)]
  | cons c cs ih =>
    intro i seq hnogap hlen
    have hg : isGap c = false := hnogap c (List.mem_cons_self c cs)
    have hi : i < seq.length := by
      simp only [List.length_cons] at hlen; omega
    have hlen' : cs.length + (i + 1) = seq.length := by
      simp only [List.length_cons] at hlen; omega
    rw [non_gap_positions_from, hg]
    simp only [Bool.false_eq_true, if_neg, not_false_iff]
    rw [projectSeq, List.get?_eq_get hi,
      ih (i + 1) seq (fun d hd => hnogap d (List.mem_cons_of_mem c hd)) hlen']
    rw [List.drop_eq_get_cons hi]

lemma cleanAll_frame :
    ∀ {idxs : List Nat} {l out : List (List Char × List Char)},
      cleanAll idxs l = some out →
      out.length = l.length ∧
        ∀ k, (out.get? k).map Prod.fst = (l.get? k).map Prod.fst := by
  intro idxs l
  induction l with
  | nil =>
    intro out h
    simp only [cleanAll, Option.some.injEq] at h
    subst h
    exact ⟨rfl, fun k => rfl⟩
  | cons p rest ih =>
    intro out h
    rcases p with ⟨header, seq⟩
    simp only [cleanAll] at h
    rcases hp : projectSeq seq idxs with _ | cs <;> rw [hp] at h
    · cases h
    rcases hr : cleanAll idxs rest with _ | out' <;> rw [hr] at h
    · cases h
    simp only [Option.some.injEq] at h
    subst h
    rcases ih hr with ⟨hlen, hlab⟩
    refine ⟨by simp [hlen], ?_⟩
    intro k
    cases k with
    | zero => rfl
    | succ k => simpa using hlab k

lemma cleanAll_mem_length :
    ∀ {idxs : List Nat} {l out : List (List Char × List Char)},
      cleanAll idxs l = some out →
      ∀ p ∈ out, p.2.length = idxs.length := by
  intro idxs l
  induction l with
  | nil =>
    intro out h
    simp only [cleanAll, Option.some.injEq] at h
    subst h
    intro p hp
    simp at hp
  | cons q rest ih =>
    intro out h
    rcases q with ⟨header, seq⟩
    simp only [cleanAll] at h
    rcases hp : projectSeq seq idxs with _ | cs <;> rw [hp] at h
    · cases h
    rcases hr : cleanAll idxs rest with _ | out' <;> rw [hr] at h
    · cases h
    simp only [Option.some.injEq] at h
    subst h
    intro p hmem
    rcases List.mem_cons.mp hmem with rfl | hmem
    · exact projectSeq_length hp
    · exact ih hr p hmem

lemma cleanAll_some_of_bounds :
    ∀ {idxs : List Nat} (l : List (List Char × List Char)),
      (∀ p ∈ l, ∀ i ∈ idxs, i < p.2.length) →
      ∃ out, cleanAll idxs l = some out := by
  intro idxs l
  induction l with
  | nil => intro _; exact ⟨[], rfl⟩
  | cons q rest ih =>
    intro h
    rcases q with ⟨header, seq⟩
    rcases projectSeq_some_of_lt idxs (h (header, seq) (List.mem_cons_self _ _)) with ⟨cs, hcs⟩
    rcases ih (fun p hp => h p (List.mem_cons_of_mem _ hp)) with ⟨out, hout⟩
    refine ⟨(header, cs) :: out, ?_⟩
    simp only [cleanAll]
    rw [hcs, hout]

lemma cleanAll_none_of_bad :
    ∀ {idxs : List Nat} {l : List (List Char × List Char)}
      {p : List Char × List Char},
      p ∈ l → projectSeq p.2 idxs = none → cleanAll idxs l = none := by
  intro idxs l
  induction l with
  | nil => intro p h; simp at h
  | cons q rest ih =>
    intro p hmem hnone
    rcases q with ⟨header, seq⟩
    rcases List.mem_cons.mp hmem with rfl | hmem
    · simp only [cleanAll]
      rw [hnone]
    · simp only [cleanAll]
      rw [ih hmem hnone]
      rcases projectSeq seq idxs with _ | cs <;> rfl

lemma cleanAll_id :
    ∀ {idxs : List Nat} (l : List (List Char × List Char)),
      (∀ p ∈ l, projectSeq p.2 idxs = some p.2) →
      cleanAll idxs l = some l := by
  intro idxs l
  induction l with
  | nil => intro _; rfl
  | cons q rest ih =>
    intro h
    rcases q with ⟨header, seq⟩
    simp only [cleanAll]
    rw [h (header, seq) (List.mem_cons_self _ _), ih (fun p hp => h p (List.mem_cons_of_mem _ hp))]

lemma read_a2m_loop_none_acc :
    ∀ (ls : List (List Char)) (acc acc' : List (List Char)),
      read_a2m_loop ls none acc = read_a2m_loop ls none acc' := by
  intro ls
  induction ls with
  | nil => intro acc acc'; rfl
  | cons line rest ih =>
    intro acc acc'
    by_cases hs : startsWithGt line
    · simp only [read_a2m_loop, hs, if_pos]
    · simp only [read_a2m_loop, hs, Bool.false_eq_true, if_neg, not_false_iff]
      exact ih (acc ++ [line]) (acc' ++ [line])

lemma chunks80_go_flatten :
    ∀ (n : Nat) (seq : List Char), seq.length ≤ n →
      (chunks80_go n seq).flatten = seq := by
  intro n
  induction n with
  | zero =>
    intro seq h
    have : seq = [] := List.length_eq_zero.mp (Nat.le_zero.mp h)
    subst this
    rfl
  | succ n ih =>
    intro seq h
    cases seq with
    | nil => rfl
    | cons c cs =>
      have hlen : ((c :: cs).drop 80).length ≤ n := by
        rw [List.length_drop]
        simp only [List.length_cons] at h ⊢
        omega
      simp only [chunks80_go, List.flatten_cons, ih _ hlen]
      exact List.take_append_drop 80 (c :: cs)

lemma chunks80_go_le :
    ∀ (n : Nat) (seq : List Char) (x : List Char),
      x ∈ chunks80_go n seq → 0 < x.length ∧ x.length ≤ 80 := by
  intro n
  induction n with
  | zero => intro seq x hx; simp [chunks80_go] at hx
  | succ n ih =>
    intro seq x hx
    cases seq with
    | nil => simp [chunks80_go] at hx
    | cons c cs =>
      simp only [chunks80_go, List.mem_cons] at hx
      rcases hx with rfl | hx
      · constructor
        · simp only [List.length_take, List.length_cons]
          omega
        · simp only [List.length_take]
          exact min_le_left 80 _
      · exact ih _ x hx

lemma chunks80_go_dropLast :
    ∀ (n : Nat) (seq : List Char), seq.length ≤ n →
      ∀ x ∈ (chunks80_go n seq).dropLast, x.length = 80 := by
  intro n
  induction n with
  | zero => intro seq h x hx; simp [chunks80_go] at hx
  | succ n ih =>
    intro seq h x hx
    cases seq with
    | nil => simp [chunks80_go] at hx
    | cons c cs =>
      have hlen : ((c :: cs).drop 80).length ≤ n := by
        rw [List.length_drop]
        simp only [List.length_cons] at h ⊢
        omega
      simp only [chunks80_go] at hx
      cases hgo : chunks80_go n ((c :: cs).drop 80) with
      | nil =>
        rw [hgo] at hx
        simp [List.dropLast] at hx
      | cons a l =>
        rw [hgo] at hx
        rw [List.dropLast_cons₂, List.mem_cons] at hx
        rcases hx with rfl | hx
        · have hd : (c :: cs).drop 80 ≠ [] := by
            intro hnil
            rw [hnil] at hgo
            cases n <;> simp [chunks80_go] at hgo
          have : 80 < (c :: cs).length := by
            by_contra hcon
            push_neg at hcon
            exact hd (List.drop_eq_nil_of_le hcon)
          simp only [List.length_take]
          omega
        · have := ih _ hlen x
          rw [hgo] at this
          exact this hx

lemma chunks80_flatten (seq : List Char) : (chunks80 seq).flatten = seq :=
  chunks80_go_flatten seq.length seq (Nat.le_refl _)

lemma chunks80_le (seq : List Char) :
    ∀ x ∈ chunks80 seq, 0 < x.length ∧ x.length ≤ 80 :=
  fun x hx => chunks80_go_le seq.length seq x hx

lemma chunks80_dropLast (seq : List Char) :
    ∀ x ∈ (chunks80 seq).dropLast, x.length = 80 :=
  chunks80_go_dropLast seq.length seq (Nat.le_refl _)

lemma script_isGap_eq (c : Char) : Script.isGap c = isGap c := rfl

lemma script_startsWithGt_eq (line : List Char) :
    Script.startsWithGt line = startsWithGt line := by
  cases line <;> rfl

lemma script_non_gap_positions_from_eq :
    ∀ (qs : List Char) (i : Nat),
      Script.non_gap_positions_from i qs = non_gap_positions_from i qs := by
  intro qs
  induction qs with
  | nil => intro i; rfl
  | cons c cs ih =>
    intro i
    simp only [Script.non_gap_positions_from, non_gap_positions_from,
      script_isGap_eq, ih]

lemma script_non_gap_positions_eq (qs : List Char) :
    Script.non_gap_positions qs = non_gap_positions qs :=
  script_non_gap_positions_from_eq qs 0

lemma script_projectSeq_eq :
    ∀ (seq : List Char) (idxs : List Nat),
      Script.projectSeq seq idxs = projectSeq seq idxs := by
  intro seq idxs
  induction idxs with
  | nil => rfl
  | cons i is ih => simp only [Script.projectSeq, projectSeq, ih]

lemma script_cleanAll_eq :
    ∀ (idxs : List Nat) (l : List (List Char × List Char)),
      Script.cleanAll idxs l = cleanAll idxs l := by
  intro idxs l
  induction l with
  | nil => rfl
  | cons p rest ih =>
    rcases p with ⟨header, seq⟩
    simp only [Script.cleanAll, cleanAll, script_projectSeq_eq, ih]

lemma script_remove_query_gaps_eq (sequences : List (List Char × List Char)) :
    Script.remove_query_gaps sequences = remove_query_gaps sequences := by
  cases sequences with
  | nil => rfl
  | cons p rest =>
    rcases p with ⟨header, seq⟩
    simp only [Script.remove_query_gaps, remove_query_gaps,
      script_non_gap_positions_eq, script_cleanAll_eq]

lemma script_read_a2m_loop_eq :
    ∀ (lines : List (List Char)) (h : Option (List Char))
      (acc : List (List Char)),
      Script.read_a2m_loop lines h acc = read_a2m_loop lines h acc := by
  intro lines
  induction lines with
  | nil => intro h acc; rfl
  | cons line rest ih =>
    intro h acc
    simp only [Script.read_a2m_loop, read_a2m_loop, script_startsWithGt_eq, ih]

lemma script_read_a2m_eq (lines : List (List Char)) :
    Script.read_a2m lines = read_a2m lines :=
  script_read_a2m_loop_eq lines none []

lemma script_chunks80_go_eq :
    ∀ (n : Nat) (seq : List Char),
      Script.chunks80_go n seq = chunks80_go n seq := by
  intro n
  induction n with
  | zero => intro seq; cases seq <;> rfl
  | succ n ih =>
    intro seq
    cases seq with
    | nil => rfl
    | cons c cs => simp only [Script.chunks80_go, chunks80_go, ih]

lemma script_chunks80_eq (seq : List Char) :
    Script.chunks80 seq = chunks80 seq :=
  script_chunks80_go_eq seq.length seq

lemma script_write_a2m_eq :
    ∀ (sequences : List (List Char × List Char)),
      Script.write_a2m sequences = write_a2m sequences := by
  intro sequences
  induction sequences with
  | nil => rfl
  | cons p rest ih =>
    rcases p with ⟨header, seq⟩
    simp only [Script.write_a2m, write_a2m, script_chunks80_eq, ih]

/-!
## Claim theorems
-/

/-- C1: for every AlignmentSet accepted by the filter (non-empty, with
`remove_query_gaps` succeeding, i.e. every record at least as long as
needed), every record of the output has residue-string length equal to the
number of positions of the first (reference) record whose character is
neither `.` nor `-`. -/
theorem remove_query_gaps_length_invariant
    (query_header query_seq : List Char)
    (rest out : List (List Char × List Char))
    (hsucc : remove_query_gaps ((query_header, query_seq) :: rest) = some out) :
    ∀ p ∈ out, p.2.length = (query_seq.filter (fun c => !isGap c)).length := by
  intro p hp
  have h1 : cleanAll (non_gap_positions query_seq)
      ((query_header, query_seq) :: rest) = some out := hsucc
  rw [cleanAll_mem_length h1 p hp]
  exact non_gap_positions_from_length query_seq 0

/-- Witness for C1 at a concrete alignment. -/
theorem remove_query_gaps_length_invariant_witness :
    ((['>', 's'], ['G', 'A']) : List Char × List Char).2.length =
      ((['A', '-', 'C'] : List Char).filter (fun c => !isGap c)).length :=
  remove_query_gaps_length_invariant
    ['>', 'q'] ['A', '-', 'C']
    [(['>', 's'], ['G', 'T', 'A'])]
    [(['>', 'q'], ['A', 'C']), (['>', 's'], ['G', 'A'])]
    (by decide) (['>', 's'], ['G', 'A']) (by decide)

/-- C2: when a non-reference record is shorter than the reference and a
retained column index computed from the reference falls outside that
record's bounds, `remove_query_gaps` fails (the Python `IndexError`,
modelled as `none`) instead of silently truncating, and the conversion
pipeline writes no output. -/
theorem remove_query_gaps_short_record_fails
    (query_header query_seq : List Char)
    (rest : List (List Char × List Char))
    (p : List Char × List Char) (i : Nat)
    (hp : p ∈ rest)
    (hshort : p.2.length < query_seq.length)
    (hi : i ∈ non_gap_positions query_seq)
    (hout : p.2.length ≤ i) :
    remove_query_gaps ((query_header, query_seq) :: rest) = none ∧
    convert_gap_clean ((query_header, query_seq) :: rest) = none := by
  have hnone : projectSeq p.2 (non_gap_positions query_seq) = none :=
    projectSeq_none_of_mem hi hout
  have h1 : cleanAll (non_gap_positions query_seq)
      ((query_header, query_seq) :: rest) = none :=
    cleanAll_none_of_bad (List.mem_cons_of_mem _ hp) hnone
  have h2 : remove_query_gaps ((query_header, query_seq) :: rest) = none := h1
  exact ⟨h2, by simp only [convert_gap_clean, h2]⟩

/-- Witness for C2 at a concrete alignment with a too-short record. -/
theorem remove_query_gaps_short_record_fails_witness :
    remove_query_gaps [(['>', 'q'], ['A', '-']), (['>', 's'], [])] = none ∧
    convert_gap_clean [(['>', 'q'], ['A', '-']), (['>', 's'], [])] = none :=
  remove_query_gaps_short_record_fails
    ['>', 'q'] ['A', '-'] [(['>', 's'], [])] (['>', 's'], []) 0
    (by decide) (by decide) (by decide) (by decide)

/-- C3 counterexample: `read_a2m` does not reject content before the first
separator line; on an input with a leading non-empty, non-separator line
it returns normally, silently dropping that line. -/
theorem read_a2m_leading_content_cex :
    read_a2m [['j', 'u', 'n', 'k'], ['>', 'a'], ['A', 'C']] =
      [(['>', 'a'], ['A', 'C'])] := by decide

/-- C3 amended: `read_a2m` raises no error on content before the first
separator line; any leading line that does not start with `>` is silently
ignored, the parse result being that of the remaining lines. -/
theorem read_a2m_ignores_leading_lines
    (line : List Char) (lines : List (List Char))
    (h : startsWithGt line = false) :
    read_a2m (line :: lines) = read_a2m lines := by
  unfold read_a2m
  simp only [read_a2m_loop, h, Bool.false_eq_true, if_neg, not_false_iff]
  exact read_a2m_loop_none_acc lines ([] ++ [line]) []

/-- Witness for the amended C3 at a concrete input. -/
theorem read_a2m_ignores_leading_lines_witness :
    read_a2m [['j', 'u', 'n', 'k'], ['>', 'a'], ['A', 'C']] =
      read_a2m [['>', 'a'], ['A', 'C']] :=
  read_a2m_ignores_leading_lines ['j', 'u', 'n', 'k']
    [['>', 'a'], ['A', 'C']] (by decide)

/-- C4: the retained-column indices computed from the reference are
pairwise strictly ascending, are exactly the zero-based indices whose
reference character is neither `.` nor `-`, and projecting any record
onto them yields a subsequence of that record (deletion only, relative
order preserved). -/
theorem non_gap_positions_ordered_and_order_preserving (query_seq : List Char) :
    List.Pairwise (· < ·) (non_gap_positions query_seq) ∧
    (∀ j, j ∈ non_gap_positions query_seq ↔
      ∃ c, query_seq.get? j = some c ∧ isGap c = false) ∧
    (∀ (seq out : List Char),
      projectSeq seq (non_gap_positions query_seq) = some out →
        out.Sublist seq) := by
  refine ⟨non_gap_positions_from_pairwise query_seq 0,
    non_gap_positions_mem query_seq, ?_⟩
  intro seq out h
  exact projectSeq_sublist seq _ (non_gap_positions_from_pairwise query_seq 0) out h

/-- Witness for C4: the projection of a concrete record onto the retained
indices of a concrete reference is a subsequence of that record. -/
theorem non_gap_positions_order_preserving_witness :
    List.Sublist (['A', 'C'] : List Char) ['A', 'G', 'C'] :=
  (non_gap_positions_ordered_and_order_preserving ['A', '-', 'C']).2.2
    ['A', 'G', 'C'] ['A', 'C'] (by decide)

/-- C5: on an alignment (equal-length records) whose reference record has
no gap symbol, the filter returns the record list unchanged, so the
composed clean-query-gaps pipeline rewrites the parsed records verbatim:
labels and residue strings are identical, only line wrapping is
reapplied. -/
theorem cleanQueryGaps_idempotent_on_gap_free
    (lines : List (List Char))
    (query_header query_seq : List Char) (rest : List (List Char × List Char))
    (hparse : read_a2m lines = (query_header, query_seq) :: rest)
    (hnogap : ∀ c ∈ query_seq, isGap c = false)
    (hlen : ∀ p ∈ read_a2m lines, p.2.length = query_seq.length) :
    remove_query_gaps (read_a2m lines) = some (read_a2m lines) ∧
    cleanQueryGaps lines = some (write_a2m (read_a2m lines)) := by
  have hid : ∀ p ∈ read_a2m lines,
      projectSeq p.2 (non_gap_positions query_seq) = some p.2 := by
    intro p hp
    have hl : query_seq.length + 0 = p.2.length := by
      rw [hlen p hp]
      omega
    have := projectSeq_nogap_drop query_seq 0 p.2 hnogap hl
    simpa [non_gap_positions] using this
  have hclean : cleanAll (non_gap_positions query_seq) (read_a2m lines) =
      some (read_a2m lines) := cleanAll_id _ hid
  have hrm : remove_query_gaps (read_a2m lines) = some (read_a2m lines) := by
    rw [hparse] at hclean ⊢
    exact hclean
  exact ⟨hrm, by simp only [cleanQueryGaps, convert_gap_clean, hrm]⟩

/-- Witness for C5 at a concrete gap-free alignment. -/
theorem cleanQueryGaps_idempotent_witness :
    remove_query_gaps (read_a2m [['>', 'q'], ['A', 'C'], ['>', 's'], ['G', 'T']]) =
      some (read_a2m [['>', 'q'], ['A', 'C'], ['>', 's'], ['G', 'T']]) ∧
    cleanQueryGaps [['>', 'q'], ['A', 'C'], ['>', 's'], ['G', 'T']] =
      some (write_a2m (read_a2m [['>', 'q'], ['A', 'C'], ['>', 's'], ['G', 'T']])) :=
  cleanQueryGaps_idempotent_on_gap_free
    [['>', 'q'], ['A', 'C'], ['>', 's'], ['G', 'T']]
    ['>', 'q'] ['A', 'C'] [(['>', 's'], ['G', 'T'])]
    (by decide) (by decide) (by decide)

/-- C6: whenever `remove_query_gaps` succeeds, the output has exactly as
many records as the input, in the same order, and every output record's
label equals the corresponding input record's label. -/
theorem remove_query_gaps_frame_effect
    (sequences out : List (List Char × List Char))
    (hsucc : remove_query_gaps sequences = some out) :
    out.length = sequences.length ∧
    ∀ k, (out.get? k).map Prod.fst = (sequences.get? k).map Prod.fst := by
  cases sequences with
  | nil =>
    simp only [remove_query_gaps, Option.some.injEq] at hsucc
    subst hsucc
    exact ⟨rfl, fun k => rfl⟩
  | cons p rest =>
    rcases p with ⟨query_header, query_seq⟩
    have h1 : cleanAll (non_gap_positions query_seq)
        ((query_header, query_seq) :: rest) = some out := hsucc
    exact cleanAll_frame h1

/-- Witness for C6 at a concrete alignment. -/
theorem remove_query_gaps_frame_effect_witness :
    ([(['>', 'q'], ['A', 'C']), (['>', 's'], ['G', 'A'])] :
        List (List Char × List Char)).length =
      ([(['>', 'q'], ['A', '-', 'C']), (['>', 's'], ['G', 'T', 'A'])] :
        List (List Char × List Char)).length :=
  (remove_query_gaps_frame_effect
    [(['>', 'q'], ['A', '-', 'C']), (['>', 's'], ['G', 'T', 'A'])]
    [(['>', 'q'], ['A', 'C']), (['>', 's'], ['G', 'A'])]
    (by decide)).1

/-- C7: `write_a2m` emits, for each record in order, the label line
verbatim followed by the residue string wrapped into consecutive lines;
every wrapped line except possibly the last has exactly 80 characters, the
last has at most 80 (and every emitted line is non-empty), and
concatenating the wrapped lines recovers the residue string. -/
theorem write_a2m_wraps_at_80
    (header seq : List Char) (rest : List (List Char × List Char)) :
    write_a2m ((header, seq) :: rest) =
      header :: (chunks80 seq ++ write_a2m rest) ∧
    (chunks80 seq).flatten = seq ∧
    (∀ x ∈ (chunks80 seq).dropLast, x.length = 80) ∧
    (∀ x ∈ chunks80 seq, 0 < x.length ∧ x.length ≤ 80) :=
  ⟨rfl, chunks80_flatten seq, chunks80_dropLast seq, chunks80_le seq⟩

/-- Witness for C7: concatenating the wrapped lines of a concrete record
recovers its residue string. -/
theorem write_a2m_wraps_at_80_witness :
    (chunks80 ['A', 'C', 'G']).flatten = ['A', 'C', 'G'] :=
  (write_a2m_wraps_at_80 ['>', 'q'] ['A', 'C', 'G'] []).2.1

/-- C8: empty input text (no lines) parses to the empty record list,
filtering the empty record list is a no-op, and serializing it emits no
lines; the composed pipeline returns empty output. -/
theorem empty_input_pipeline :
    read_a2m [] = [] ∧
    remove_query_gaps [] = some [] ∧
    write_a2m [] = [] ∧
    cleanQueryGaps [] = some [] := by decide

/-- C9 counterexample: an AlignmentSet with a record strictly longer than
the reference in which `remove_query_gaps` nevertheless fails, because
another record is too short: the claim's unconditional success does not
hold. -/
theorem remove_query_gaps_longer_record_cex :
    remove_query_gaps
        [(['>', 'q'], ['A', '-']), (['>', 'r'], ['A', 'B', 'C']), (['>', 's'], [])] =
      none ∧
    (['A', '-'] : List Char).length < (['A', 'B', 'C'] : List Char).length := by
  decide

/-- C9 amended: if some non-reference record is strictly longer than the
reference and every non-reference record is at least as long as the
reference, `remove_query_gaps` succeeds without error, silently discarding
the columns of the longer records at indices not retained from the
reference: every output record's length equals the retained-column
count. -/
theorem remove_query_gaps_longer_records_truncated
    (query_header query_seq : List Char) (rest : List (List Char × List Char))
    (hlong : ∃ p ∈ rest, query_seq.length < p.2.length)
    (hge : ∀ p ∈ rest, query_seq.length ≤ p.2.length) :
    ∃ out, remove_query_gaps ((query_header, query_seq) :: rest) = some out ∧
      ∀ p ∈ out, p.2.length = (query_seq.filter (fun c => !isGap c)).length := by
  have hb : ∀ p ∈ (query_header, query_seq) :: rest,
      ∀ i ∈ non_gap_positions query_seq, i < p.2.length := by
    intro p hp i hi
    have hlt := non_gap_positions_lt hi
    rcases List.mem_cons.mp hp with rfl | hp
    · exact hlt
    · exact Nat.lt_of_lt_of_le hlt (hge p hp)
  rcases cleanAll_some_of_bounds _ hb with ⟨out, hout⟩
  refine ⟨out, hout, ?_⟩
  intro p hp
  rw [cleanAll_mem_length hout p hp]
  exact non_gap_positions_from_length query_seq 0

/-- Witness for the amended C9 at a concrete alignment with one longer
record. -/
theorem remove_query_gaps_longer_records_truncated_witness :
    ∃ out, remove_query_gaps
        [(['>', 'q'], ['A', '-']), (['>', 'r'], ['A', 'B', 'C'])] = some out ∧
      ∀ p ∈ out, p.2.length =
        ((['A', '-'] : List Char).filter (fun c => !isGap c)).length :=
  remove_query_gaps_longer_records_truncated
    ['>', 'q'] ['A', '-'] [(['>', 'r'], ['A', 'B', 'C'])]
    (by decide) (by decide)

/-- C10: the standalone script and the MCP tool module implement the same
transformation: the script's `read_a2m`, `remove_query_gaps` and
`write_a2m` agree with the module's functions of the same names on every
input. -/
theorem script_module_equivalence :
    (∀ lines : List (List Char), Script.read_a2m lines = read_a2m lines) ∧
    (∀ sequences : List (List Char × List Char),
      Script.remove_query_gaps sequences = remove_query_gaps sequences) ∧
    (∀ sequences : List (List Char × List Char),
      Script.write_a2m sequences = write_a2m sequences) :=
  ⟨script_read_a2m_eq, script_remove_query_gaps_eq, script_write_a2m_eq⟩

/-- Witness for C10 at a concrete input. -/
theorem script_module_equivalence_witness :
    Script.read_a2m [['>', 'a'], ['A', 'C']] = read_a2m [['>', 'a'], ['A', 'C']] :=
  script_module_equivalence.1 [['>', 'a'], ['A', 'C']]
